import Mathlib

/-!
Verification of the mandel repository's core pipeline: coordinate mapping,
escape-time evaluation, band rendering, band partitioning, and pair parsing.

The Rust source computes with `f64`.  Two embeddings are used side by side:

* an exact-arithmetic model over `ℚ` (`pixel_to_point`, `escapes`, `render`),
  used for the claims whose content is independent of rounding; and
* a binary64 model `FP` (round-to-nearest-even, 53-bit significand,
  gradual underflow, overflow to signed infinity, absorbing NaN) used for the
  claims that hinge on the code's actual floating-point semantics.
  `FP` conflates `-0.0` with `+0.0`; the two are numerically equal (`==`)
  in every comparison the source performs, and no operation reached by the
  theorems below distinguishes them.
-/

set_option maxRecDepth 100000

namespace Mandel

/-! ### Exact-arithmetic (ℚ) model of the numeric core -/

/-- `pixel_to_point` from src/lib.rs, with the `f64` arithmetic read exactly
over `ℚ`: `(upper_left.0 + pixel.0 * width / bounds.0,
upper_left.1 - pixel.1 * height / bounds.1)` where
`width = lower_right.0 - upper_left.0`, `height = upper_left.1 - lower_right.1`. -/
def pixel_to_point (bounds : ℕ × ℕ) (pixel : ℕ × ℕ)
    (upper_left lower_right : ℚ × ℚ) : ℚ × ℚ :=
  let width : ℚ := lower_right.1 - upper_left.1
  let height : ℚ := upper_left.2 - lower_right.2
  (upper_left.1 + (pixel.1 : ℚ) * width / (bounds.1 : ℚ),
   upper_left.2 - (pixel.2 : ℚ) * height / (bounds.2 : ℚ))

/-- Loop body of `escapes` from src/lib.rs over exact rationals.  The state is
`z = (zr, zi)`, `i` is the loop index, and the second argument counts the
remaining iterations (`limit - i`).  Each pass first updates `z ← z*z + c`
exactly as `num::Complex` computes it (`re = zr*zr - zi*zi + cr`,
`im = zr*zi + zi*zr + ci`) and then tests `norm_sqr z > 4`. -/
def escapesAux (cr ci : ℚ) : ℚ → ℚ → ℕ → ℕ → Option ℕ
  | _, _, _, 0 => none
  | zr, zi, i, fuel + 1 =>
    let zr' := zr * zr - zi * zi + cr
    let zi' := zr * zi + zi * zr + ci
    if zr' * zr' + zi' * zi' > 4 then some i
    else escapesAux cr ci zr' zi' (i + 1) fuel

/-- `escapes` from src/lib.rs over exact rationals: iterate `z ← z² + c` from
`z = 0` for at most `limit` rounds, returning the 0-based index of the first
iteration whose updated `z` has `norm_sqr z > 4`, and `none` at exhaustion. -/
def escapes (c : ℚ × ℚ) (limit : ℕ) : Option ℕ :=
  escapesAux c.1 c.2 0 0 0 limit

/-- The byte `render` stores for one plane point: `0` when `escapes` returns
`None`, and `255 - count as u8` when it returns `Some(count)` (the Rust `u8`
cast is `count % 256`). -/
def pixVal (p : ℚ × ℚ) : ℕ :=
  match escapes p 255 with
  | none => 0
  | some count => 255 - count % 256

/-- A Rust slice store `pixels[i] = v`: fails (models the out-of-bounds panic)
when `i` is not a valid index. -/
def setAt (l : List ℕ) (i v : ℕ) : Option (List ℕ) :=
  if i < l.length then some (l.set i v) else none

/-- Inner column loop of `render`: writes pixels `(c, r), (c+1, r), …` at
indices `r * bounds.0 + c, …`, with the last argument counting the remaining
columns. -/
def renderCols (bounds : ℕ × ℕ) (ul lr : ℚ × ℚ) (r : ℕ) :
    ℕ → List ℕ → ℕ → Option (List ℕ)
  | _, px, 0 => some px
  | c, px, n + 1 =>
    (setAt px (r * bounds.1 + c) (pixVal (pixel_to_point bounds (c, r) ul lr))).bind
      fun px' => renderCols bounds ul lr r (c + 1) px' n

/-- Outer row loop of `render`, the last argument counting the remaining rows. -/
def renderRows (bounds : ℕ × ℕ) (ul lr : ℚ × ℚ) :
    ℕ → List ℕ → ℕ → Option (List ℕ)
  | _, px, 0 => some px
  | r, px, n + 1 =>
    (renderCols bounds ul lr r 0 px bounds.1).bind
      fun px' => renderRows bounds ul lr (r + 1) px' n

/-- `render` from src/lib.rs.  The leading `assert!(pixels.len() ==
bounds.0 * bounds.1)` is modelled by returning `none` (panic) on mismatch;
buffer writes are the fallible `setAt`, so any out-of-bounds access would
also surface as `none`. -/
def render (pixels : List ℕ) (bounds : ℕ × ℕ) (ul lr : ℚ × ℚ) :
    Option (List ℕ) :=
  if pixels.length = bounds.1 * bounds.2 then
    renderRows bounds ul lr 0 pixels bounds.2
  else none

/-! ### Band partitioning performed by `run` -/

/-- `pixels.chunks_mut(w)` from `run` in src/lib.rs: split a buffer into
consecutive chunks of `w` elements (the last one shorter if `w` does not
divide the length).  Rust panics on `w = 0`; `run` only reaches the call with
`w = bounds.0`, and the claims assume positive width, so the `w = 0` guard
branch below is never relevant to the theorems. -/
def chunks (w : ℕ) (l : List ℕ) : List (List ℕ) :=
  if h : w = 0 ∨ l = [] then []
  else (l.take w) :: chunks w (l.drop w)
termination_by l.length
decreasing_by
  simp only [not_or] at h
  have hl : 0 < l.length := List.length_pos.mpr h.2
  have hw : 0 < w := Nat.pos_of_ne_zero h.1
  simpa using Nat.sub_lt hl hw

/-! ### Pair parsing -/

/-- `s.find(separator)` plus the two slices `&s[..index]` and `&s[index+1..]`
from `parse_pair`, phrased over the character sequence: returns the characters
strictly before the first occurrence of `sep` and the characters after it, or
`none` when `sep` does not occur. -/
def splitAtSep (sep : Char) : List Char → Option (List Char × List Char)
  | [] => none
  | c :: rest =>
    if c = sep then some ([], rest)
    else (splitAtSep sep rest).map fun pr => (c :: pr.1, pr.2)

/-- `parse_pair` from src/lib.rs.  `s.find(separator)` yields the byte index
of the first occurrence of `separator`; the code then takes `&s[..index]` and
`&s[index + 1..]`.  The first slice always ends on a character boundary.  The
start of the second, `index + 1`, is a character boundary precisely when the
separator's UTF-8 encoding is a single byte; for a multi-byte separator it
falls on one of the separator's continuation bytes and the slice expression
panics, modelled by `Except.error ()`.  When the separator is absent the code
returns `None` before slicing anything. -/
def parse_pair {α : Type} (p : List Char → Option α) (s : List Char)
    (separator : Char) : Except Unit (Option (α × α)) :=
  match splitAtSep separator s with
  | none => Except.ok none
  | some (l, r) =>
    if separator.utf8Size = 1 then
      Except.ok
        (match p l, p r with
         | some a, some b => some (a, b)
         | _, _ => none)
    else Except.error ()

/-- Accumulating decimal-digit reader: consumes the whole list, failing on the
first non-digit; an empty list returns the accumulator. -/
def readDigits (acc : ℕ) : List Char → Option ℕ
  | [] => some acc
  | c :: cs =>
    if c.isDigit then readDigits (acc * 10 + (c.toNat - '0'.toNat)) cs
    else none

/-- Sign-stripped body of `i32::from_str`: one or more decimal digits, value
checked against the `i32` range. -/
def parse_i32Core (neg : Bool) (l : List Char) : Option ℤ :=
  if l = [] then none
  else
    match readDigits 0 l with
    | none => none
    | some v =>
      if neg then if v ≤ 2 ^ 31 then some (-(v : ℤ)) else none
      else if v ≤ 2 ^ 31 - 1 then some (v : ℤ) else none

/-- `i32::from_str` (the `T::from_str` instance used by the repository's
`parse_pair::<i32>` tests): optional sign, then one or more ASCII decimal
digits, rejecting anything else and values outside `[-2³¹, 2³¹ - 1]`. -/
def parse_i32 (s : List Char) : Option ℤ :=
  match s with
  | '+' :: rest => parse_i32Core false rest
  | '-' :: rest => parse_i32Core true rest
  | l => parse_i32Core false l

/-! ### Binary64 model -/

/-- An IEEE-754 binary64 value: NaN, a signed infinity (`true` = negative), or
a finite value carried as its exact rational magnitude (`-0.0` conflated with
`+0.0`). -/
inductive FP where
  | nan : FP
  | inf : Bool → FP
  | fin : ℚ → FP
deriving DecidableEq

/-- Round a rational to the nearest integer, ties to even. -/
def rne (q : ℚ) : ℤ :=
  let n := q.floor
  let f := q - (n : ℚ)
  if f < 1 / 2 then n
  else if 1 / 2 < f then n + 1
  else if n % 2 = 0 then n else n + 1

/-- `⌊log₂ (n / d)⌋` for naturals `1 ≤ n / d` by repeated halving; the first
argument is fuel (structural, so that the kernel can evaluate it), amply
larger than any exponent a binary64 computation can produce. -/
def log2Nat : ℕ → ℕ → ℕ
  | 0, _ => 0
  | fuel + 1, n => if n ≤ 1 then 0 else log2Nat fuel (n / 2) + 1

/-- Least `k` with `den ≤ m·2^(k-1)` reached by doubling (`m` starts at
`2·num`, `k` at 1), i.e. `-⌊log₂ (num/den)⌋` for `num < den`; fuel-structural
for kernel evaluation. -/
def clogAux (den : ℕ) : ℕ → ℕ → ℕ → ℕ
  | 0, _, k => k
  | fuel + 1, m, k => if den ≤ m then k else clogAux den fuel (m * 2) (k + 1)

/-- `⌊log₂ q⌋` for a positive rational (fuel covers every magnitude a chain of
binary64 operations can reach). -/
def ilog2 (q : ℚ) : ℤ :=
  let n := q.num.toNat
  let d := q.den
  if d ≤ n then (log2Nat 4000 (n / d) : ℤ)
  else -(clogAux d 4000 (n * 2) 1 : ℤ)

/-- `a · 2^k` for an integer exponent, via kernel-friendly `Nat` powers. -/
def mulPow2 (a : ℚ) (k : ℤ) : ℚ :=
  if 0 ≤ k then a * ((2 ^ k.toNat : ℕ) : ℚ)
  else a / ((2 ^ (-k).toNat : ℕ) : ℚ)

/-- Round a positive rational to the binary64 grid (53-bit significand,
minimum exponent −1074 for gradual underflow); overflow is detected by the
caller. -/
def roundPos (a : ℚ) : ℚ :=
  let e : ℤ := ilog2 a
  let shift : ℤ := max (e - 52) (-1074)
  mulPow2 ((rne (mulPow2 a (-shift)) : ℤ) : ℚ) shift

/-- `2¹⁰²⁴`, the binary64 overflow threshold. -/
def fpHuge : ℚ := ((2 ^ 1024 : ℕ) : ℚ)

/-- The result of a binary64 operation with exact rational value `q`:
round to nearest even, overflowing to infinity past the 2¹⁰²⁴ threshold. -/
def mkFP (q : ℚ) : FP :=
  if q = 0 then FP.fin 0
  else
    let r := roundPos (if q < 0 then -q else q)
    if fpHuge ≤ r then FP.inf (decide (q < 0))
    else FP.fin (if q < 0 then -r else r)

/-- binary64 negation. -/
def fpNeg : FP → FP
  | FP.nan => FP.nan
  | FP.inf s => FP.inf (!s)
  | FP.fin a => FP.fin (-a)

/-- binary64 addition (NaN absorbing, opposite infinities give NaN). -/
def fpAdd : FP → FP → FP
  | FP.nan, _ => FP.nan
  | _, FP.nan => FP.nan
  | FP.inf s, FP.inf t => if s = t then FP.inf s else FP.nan
  | FP.inf s, FP.fin _ => FP.inf s
  | FP.fin _, FP.inf t => FP.inf t
  | FP.fin a, FP.fin b => mkFP (a + b)

/-- binary64 subtraction. -/
def fpSub (x y : FP) : FP := fpAdd x (fpNeg y)

/-- binary64 multiplication (NaN absorbing, `0 × ∞ = NaN`). -/
def fpMul : FP → FP → FP
  | FP.nan, _ => FP.nan
  | _, FP.nan => FP.nan
  | FP.inf s, FP.inf t => FP.inf (xor s t)
  | FP.inf s, FP.fin b => if b = 0 then FP.nan else FP.inf (xor s (decide (b < 0)))
  | FP.fin a, FP.inf t => if a = 0 then FP.nan else FP.inf (xor (decide (a < 0)) t)
  | FP.fin a, FP.fin b => mkFP (a * b)

/-- binary64 division (`0/0 = NaN`, `x/0 = ±∞` for finite `x ≠ 0`,
`x/∞ = 0`, `∞/∞ = NaN`). -/
def fpDiv : FP → FP → FP
  | FP.nan, _ => FP.nan
  | _, FP.nan => FP.nan
  | FP.inf _, FP.inf _ => FP.nan
  | FP.inf s, FP.fin b => FP.inf (xor s (decide (b < 0)))
  | FP.fin _, FP.inf _ => FP.fin 0
  | FP.fin a, FP.fin b =>
    if b = 0 then if a = 0 then FP.nan else FP.inf (decide (a < 0))
    else mkFP (a / b)

/-- binary64 strict order as the hardware `<` computes it: any comparison
with NaN is false. -/
def fpLt : FP → FP → Bool
  | FP.nan, _ => false
  | _, FP.nan => false
  | FP.inf true, FP.inf true => false
  | FP.inf true, _ => true
  | FP.inf false, _ => false
  | FP.fin _, FP.inf t => !t
  | FP.fin a, FP.fin b => decide (a < b)

/-- `pixel_to_point` from src/lib.rs under the binary64 model; the `usize`
pixel and bounds components pass through `as f64` (round to nearest). -/
def pixel_to_pointFp (bounds : ℕ × ℕ) (pixel : ℕ × ℕ)
    (upper_left lower_right : FP × FP) : FP × FP :=
  let width : FP := fpSub lower_right.1 upper_left.1
  let height : FP := fpSub upper_left.2 lower_right.2
  (fpAdd upper_left.1 (fpDiv (fpMul (mkFP (pixel.1 : ℚ)) width) (mkFP (bounds.1 : ℚ))),
   fpSub upper_left.2 (fpDiv (fpMul (mkFP (pixel.2 : ℚ)) height) (mkFP (bounds.2 : ℚ))))

/-- Loop body of `escapes` under the binary64 model, mirroring `escapesAux`:
`num::Complex` squaring (`re = zr*zr - zi*zi`, `im = zr*zi + zi*zr`), the `+ c`,
then the `norm_sqr > 4.0` test, every operation rounded. -/
def escapesFpAux (cr ci : FP) : FP → FP → ℕ → ℕ → Option ℕ
  | _, _, _, 0 => none
  | zr, zi, i, fuel + 1 =>
    let zr' := fpAdd (fpSub (fpMul zr zr) (fpMul zi zi)) cr
    let zi' := fpAdd (fpAdd (fpMul zr zi) (fpMul zi zr)) ci
    if fpLt (FP.fin 4) (fpAdd (fpMul zr' zr') (fpMul zi' zi')) then some i
    else escapesFpAux cr ci zr' zi' (i + 1) fuel

/-- `escapes` from src/lib.rs under the binary64 model. -/
def escapesFp (c : FP × FP) (limit : ℕ) : Option ℕ :=
  escapesFpAux c.1 c.2 (FP.fin 0) (FP.fin 0) 0 limit

/-- Sign-stripped body of `f64::from_str` restricted to plain decimal
literals (`digits`, `digits.`, `digits.digits`, `.digits`), which covers every
floating-point string the repository's tests feed it; the exact decimal value
is then rounded to binary64.  (The full Rust grammar additionally accepts
exponents and `inf`/`NaN` spellings; none are exercised by the claims.) -/
def parse_f64Core (neg : Bool) (l : List Char) : Option FP :=
  let signed : ℚ → ℚ := fun v => if neg then -v else v
  match splitAtSep '.' l with
  | none =>
    if l = [] then none
    else (readDigits 0 l).map fun v => mkFP (signed (v : ℚ))
  | some (a, b) =>
    if a = [] ∧ b = [] then none
    else
      match readDigits 0 a, readDigits 0 b with
      | some va, some vb =>
        some (mkFP (signed ((va : ℚ) + (vb : ℚ) / (10 : ℚ) ^ b.length)))
      | _, _ => none

/-- `f64::from_str` (the instance used by `parse_pair::<f64>`), restricted as
in `parse_f64Core`: optional sign, then a plain decimal literal. -/
def parse_f64 (s : List Char) : Option FP :=
  match s with
  | '+' :: rest => parse_f64Core false rest
  | '-' :: rest => parse_f64Core true rest
  | l => parse_f64Core false l

/-! ### Helper lemmas -/

theorem fpAdd_nan_right (x : FP) : fpAdd x FP.nan = FP.nan := by
  cases x <;> rfl

theorem fpAdd_nan_left (x : FP) : fpAdd FP.nan x = FP.nan := by
  cases x <;> rfl

theorem fpMul_nan_left (x : FP) : fpMul FP.nan x = FP.nan := by
  cases x <;> rfl

theorem fpSub_nan_right (x : FP) : fpSub x FP.nan = FP.nan :=
  fpAdd_nan_right x

theorem fpLt_nan_right (x : FP) : fpLt x FP.nan = false := by
  cases x with
  | nan => rfl
  | inf s => cases s <;> rfl
  | fin a => rfl

theorem escapesAux_bound (cr ci : ℚ) :
    ∀ (fuel : ℕ) (zr zi : ℚ) (i j : ℕ),
      escapesAux cr ci zr zi i fuel = some j → j < i + fuel := by
  intro fuel
  induction fuel with
  | zero => intro zr zi i j hj; cases hj
  | succ n ih =>
    intro zr zi i j hj
    rw [escapesAux] at hj
    by_cases hc : (zr * zr - zi * zi + cr) * (zr * zr - zi * zi + cr) +
        (zr * zi + zi * zr + ci) * (zr * zi + zi * zr + ci) > 4
    · simp only [if_pos hc, Option.some.injEq] at hj
      omega
    · simp only [if_neg hc] at hj
      have := ih _ _ (i + 1) j hj
      omega

theorem escapesFpAux_bound (cr ci : FP) :
    ∀ (fuel : ℕ) (zr zi : FP) (i j : ℕ),
      escapesFpAux cr ci zr zi i fuel = some j → j < i + fuel := by
  intro fuel
  induction fuel with
  | zero => intro zr zi i j hj; cases hj
  | succ n ih =>
    intro zr zi i j hj
    rw [escapesFpAux] at hj
    by_cases hc : fpLt (FP.fin 4)
        (fpAdd (fpMul (fpAdd (fpSub (fpMul zr zr) (fpMul zi zi)) cr)
                      (fpAdd (fpSub (fpMul zr zr) (fpMul zi zi)) cr))
               (fpMul (fpAdd (fpAdd (fpMul zr zi) (fpMul zi zr)) ci)
                      (fpAdd (fpAdd (fpMul zr zi) (fpMul zi zr)) ci))) = true
    · simp only [hc, if_pos, Option.some.injEq] at hj
      omega
    · simp only [Bool.not_eq_true] at hc
      simp only [hc, if_neg, Bool.false_eq_true, not_false_eq_true] at hj
      have := ih _ _ (i + 1) j hj
      omega

theorem escapesAux_origin :
    ∀ (fuel i : ℕ), escapesAux 0 0 0 0 i fuel = none := by
  intro fuel
  induction fuel with
  | zero => intro i; rfl
  | succ n ih =>
    intro i
    rw [escapesAux]
    norm_num
    exact ih (i + 1)

theorem splitAtSep_sound (sep : Char) :
    ∀ (s l r : List Char), splitAtSep sep s = some (l, r) →
      s = l ++ sep :: r ∧ sep ∉ l := by
  intro s
  induction s with
  | nil => intro l r hsp; cases hsp
  | cons c rest ih =>
    intro l r hsp
    rw [splitAtSep] at hsp
    by_cases hc : c = sep
    · rw [if_pos hc] at hsp
      obtain ⟨h1, h2⟩ := Prod.ext_iff.mp (Option.some_inj.mp hsp)
      subst h1
      subst h2
      subst hc
      exact ⟨rfl, List.not_mem_nil _⟩
    · rw [if_neg hc, Option.map_eq_some'] at hsp
      obtain ⟨⟨l', r'⟩, hrec, heq⟩ := hsp
      obtain ⟨h1, h2⟩ := Prod.ext_iff.mp heq
      subst h1
      subst h2
      obtain ⟨hs, hnl⟩ := ih l' r' hrec
      constructor
      · rw [List.cons_append, ← hs]
      · intro hmem
        rcases List.mem_cons.mp hmem with h | h
        · exact hc h.symm
        · exact hnl h

theorem splitAtSep_complete (sep : Char) :
    ∀ (l r : List Char), sep ∉ l →
      splitAtSep sep (l ++ sep :: r) = some (l, r) := by
  intro l
  induction l with
  | nil => intro r _; simp [splitAtSep]
  | cons c l' ih =>
    intro r hnl
    have hc : ¬(c = sep) := fun h => hnl (h ▸ List.mem_cons_self c l')
    rw [List.cons_append, splitAtSep, if_neg hc,
      ih r (fun h => hnl (List.mem_cons_of_mem c h))]
    simp

theorem splitAtSep_none_of_not_mem (sep : Char) :
    ∀ s : List Char, sep ∉ s → splitAtSep sep s = none := by
  intro s
  induction s with
  | nil => intro _; rfl
  | cons c rest ih =>
    intro hmem
    have hc : ¬(c = sep) := fun h => hmem (h ▸ List.mem_cons_self c rest)
    rw [splitAtSep, if_neg hc, ih (fun h => hmem (List.mem_cons_of_mem c h))]
    rfl

theorem parse_pair_eq_of_split_none {α : Type} (p : List Char → Option α)
    (s : List Char) (sep : Char) (hsp : splitAtSep sep s = none) :
    parse_pair p s sep = Except.ok none := by
  unfold parse_pair
  rw [hsp]

theorem parse_pair_eq_of_split_some {α : Type} (p : List Char → Option α)
    (s : List Char) (sep : Char) (l r : List Char)
    (hsp : splitAtSep sep s = some (l, r)) :
    parse_pair p s sep =
      if sep.utf8Size = 1 then
        Except.ok
          (match p l, p r with
           | some a, some b => some (a, b)
           | _, _ => none)
      else Except.error () := by
  unfold parse_pair
  rw [hsp]

theorem chunks_partition (w : ℕ) (hw : 0 < w) :
    ∀ (h : ℕ) (px : List ℕ), px.length = w * h →
      (chunks w px).length = h
      ∧ (∀ b ∈ chunks w px, b.length = w)
      ∧ (∀ i, i < h → (chunks w px)[i]? = some ((px.drop (i * w)).take w))
      ∧ (chunks w px).flatten = px := by
  intro h
  induction h with
  | zero =>
    intro px hlen
    have hpx : px = [] := List.length_eq_zero.mp (by omega)
    subst hpx
    rw [chunks]
    simp
  | succ n ih =>
    intro px hlen
    have hwn : 0 < w * (n + 1) := Nat.mul_pos hw (by omega)
    have hpx : ¬(w = 0 ∨ px = []) := by
      rintro (h0 | h0)
      · omega
      · rw [h0] at hlen; simp at hlen; omega
    have hstep : chunks w px = (px.take w) :: chunks w (px.drop w) := by
      rw [chunks, dif_neg hpx]
    have hmul : w * (n + 1) = w * n + w := by ring
    have hdrop : (px.drop w).length = w * n := by
      rw [List.length_drop, hlen]
      omega
    obtain ⟨ihl, ihall, ihget, ihjoin⟩ := ih (px.drop w) hdrop
    refine ⟨?_, ?_, ?_, ?_⟩
    · rw [hstep]; simp [ihl]
    · intro b hb
      rw [hstep] at hb
      rcases List.mem_cons.mp hb with rfl | hb'
      · rw [List.length_take, hlen]
        omega
      · exact ihall b hb'
    · intro i hi
      cases i with
      | zero => rw [hstep]; simp
      | succ j =>
        rw [hstep]
        have hj : (chunks w (px.drop w))[j]?
            = some (((px.drop w).drop (j * w)).take w) := ihget j (by omega)
        rw [List.getElem?_cons_succ, hj, List.drop_drop]
        have harith : w + j * w = (j + 1) * w := by ring
        rw [harith]
    · rw [hstep]
      simp only [List.flatten_cons]
      rw [ihjoin, List.take_append_drop]

/-! ### Claim theorems -/

theorem escapesFpAux_nan (cr ci : FP) (h : cr = FP.nan ∨ ci = FP.nan) :
    ∀ (fuel : ℕ) (zr zi : FP) (i : ℕ),
      escapesFpAux cr ci zr zi i fuel = none := by
  intro fuel
  induction fuel with
  | zero => intro zr zi i; rfl
  | succ n ih =>
    intro zr zi i
    rw [escapesFpAux]
    rcases h with h | h <;> subst h
    · simp only [fpAdd_nan_right, fpMul_nan_left, fpAdd_nan_left,
        fpLt_nan_right, Bool.false_eq_true, if_false]
      exact ih _ _ _
    · simp only [fpAdd_nan_right, fpMul_nan_left, fpAdd_nan_left,
        fpLt_nan_right, Bool.false_eq_true, if_false]
      exact ih _ _ _

/-- C7: if either component of `c` is NaN then every iterate of
`z ← z² + c` has a NaN component, every `norm_sqr > 4` comparison is false,
and `escapes` runs to the limit and returns `none`. -/
theorem escapesFp_nan_input (c : FP × FP) (limit : ℕ)
    (h : c.1 = FP.nan ∨ c.2 = FP.nan) : escapesFp c limit = none :=
  escapesFpAux_nan c.1 c.2 h limit (FP.fin 0) (FP.fin 0) 0

/-- Witness for C7 at the concrete input `c = (NaN, 0)`, `limit = 5`. -/
theorem escapesFp_nan_input_witness :
    escapesFp (FP.nan, FP.fin 0) 5 = none :=
  escapesFp_nan_input (FP.nan, FP.fin 0) 5 (Or.inl rfl)

/-- C9: an escape index returned by `escapes` is strictly below the limit (in
both the exact and the binary64 model); consequently with limit 255 the
`count as u8` cast is lossless (`count % 256 = count`), the stored byte is
`255 - count` with no wrap-around, every escaping pixel gets an intensity in
`[1, 255]`, and intensity `0` is stored exactly for the non-escaping pixels. -/
theorem escape_count_bounds :
    (∀ (c : ℚ × ℚ) (limit i : ℕ), escapes c limit = some i → i < limit)
  ∧ (∀ (c : FP × FP) (limit i : ℕ), escapesFp c limit = some i → i < limit)
  ∧ (∀ p : ℚ × ℚ,
      (pixVal p = 0 ↔ escapes p 255 = none)
      ∧ ∀ i, escapes p 255 = some i →
          i % 256 = i ∧ pixVal p = 255 - i ∧ 1 ≤ pixVal p ∧ pixVal p ≤ 255) := by
  refine ⟨fun c limit i hi => ?_, fun c limit i hi => ?_, fun p => ?_⟩
  · have := escapesAux_bound c.1 c.2 limit 0 0 0 i hi
    omega
  · have := escapesFpAux_bound c.1 c.2 limit (FP.fin 0) (FP.fin 0) 0 i hi
    omega
  · cases hesc : escapes p 255 with
    | none => simp [pixVal, hesc]
    | some i =>
      have hib : i < 255 := by
        have := escapesAux_bound p.1 p.2 255 0 0 0 i hesc
        omega
      have hmod : i % 256 = i := Nat.mod_eq_of_lt (by omega)
      have hval : pixVal p = 255 - i := by
        simp [pixVal, hesc, hmod]
      constructor
      · constructor
        · intro h0
          rw [hval] at h0
          exact absurd h0 (by omega)
        · intro hnone
          exact Option.noConfusion hnone
      · intro j hj
        obtain rfl : i = j := Option.some_inj.mp hj
        refine ⟨hmod, hval, ?_, ?_⟩ <;> rw [hval] <;> omega

/-- Witness for C9 at `c = (3, 0)`, `limit = 1`, where `escapes` returns
`some 0` at once. -/
theorem escape_count_bounds_witness :
    (0 : ℕ) < 1 ∧ pixVal ((3 : ℚ), (0 : ℚ)) = 255 := by
  have hesc : escapes ((3 : ℚ), (0 : ℚ)) 1 = some 0 := by
    with_unfolding_all rfl
  have hesc255 : escapes ((3 : ℚ), (0 : ℚ)) 255 = some 0 := by
    with_unfolding_all rfl
  refine ⟨escape_count_bounds.1 ((3 : ℚ), (0 : ℚ)) 1 0 hesc, ?_⟩
  have := (escape_count_bounds.2.2 ((3 : ℚ), (0 : ℚ))).2 0 hesc255
  omega

/-- C3 (amended): `escapes(0+0i, limit)` is `None` for every limit; and under
exact rational arithmetic any `c` with `|c| > 2` (i.e. `c.re² + c.im² > 4`)
escapes at index 0.  Under the code's binary64 rounding the second part can
fail for `|c|` barely above 2 (see the counterexample theorem). -/
theorem escapes_origin_and_outside :
    (∀ limit : ℕ, escapes ((0 : ℚ), (0 : ℚ)) limit = none)
  ∧ (∀ (c : ℚ × ℚ) (limit : ℕ), 0 < limit → 4 < c.1 * c.1 + c.2 * c.2 →
      escapes c limit = some 0) := by
  constructor
  · intro limit
    exact escapesAux_origin limit 0
  · intro c limit hpos hout
    obtain ⟨fuel, rfl⟩ : ∃ fuel, limit = fuel + 1 :=
      ⟨limit - 1, by omega⟩
    show escapesAux c.1 c.2 0 0 0 (fuel + 1) = some 0
    rw [escapesAux]
    have h1 : (0 : ℚ) * 0 - 0 * 0 + c.1 = c.1 := by ring
    have h2 : (0 : ℚ) * 0 + 0 * 0 + c.2 = c.2 := by ring
    rw [h1, h2, if_pos hout]

/-- Witness for C3's amended theorem at the origin with `limit = 7` and at
`c = (3, 0)` with `limit = 1`. -/
theorem escapes_origin_and_outside_witness :
    escapes ((0 : ℚ), (0 : ℚ)) 7 = none
  ∧ escapes ((3 : ℚ), (0 : ℚ)) 1 = some 0 :=
  ⟨escapes_origin_and_outside.1 7,
   escapes_origin_and_outside.2 ((3 : ℚ), (0 : ℚ)) 1 (by norm_num) (by norm_num)⟩

/-- C3 counterexample: `c = 2 + 2⁻³⁰ i` satisfies `|c| > 2` exactly, yet under
binary64 arithmetic `norm_sqr(c)` rounds to exactly `4.0`, the `> 4` test
fails at index 0, and `escapes` returns `Some(1)`, not `Some(0)`. -/
theorem escapes_outside_counterexample :
    (4 : ℚ) < 2 * 2 + (1 / 2 ^ 30) * (1 / 2 ^ 30)
  ∧ escapesFp (FP.fin 2, FP.fin (1 / 2 ^ 30)) 255 = some 1
  ∧ escapesFp (FP.fin 2, FP.fin (1 / 2 ^ 30)) 255 ≠ some 0 := by
  have h2 : escapesFp (FP.fin 2, FP.fin (1 / 2 ^ 30)) 255 = some 1 := by
    with_unfolding_all rfl
  exact ⟨by norm_num, h2, ne_of_eq_of_ne h2 (by simp)⟩

/-- C2 (amended): with positive bounds and a non-degenerate, non-inverted
window, `pixel_to_point` maps pixel `(0,0)` exactly to `upper_left` — both
under exact arithmetic and under binary64 arithmetic (given representable
corners, non-overflowing window extents and a nonzero rounded width/height
divisor) — and maps `(width, height)` to `lower_right` under exact rational
arithmetic.  Under binary64 rounding the `(width, height)` corner can differ
from `lower_right` (see the counterexample theorem). -/
theorem pixel_to_point_corners (bw bh : ℕ) (u1 u2 l1 l2 w ht bq hq : ℚ)
    (hbw : 0 < bw) (hbh : 0 < bh)
    (hwin1 : u1 < l1) (hwin2 : l2 < u2)
    (hu1 : mkFP u1 = FP.fin u1) (hu2 : mkFP u2 = FP.fin u2)
    (hw : fpSub (FP.fin l1) (FP.fin u1) = FP.fin w)
    (hht : fpSub (FP.fin u2) (FP.fin l2) = FP.fin ht)
    (hbwf : mkFP ((bw : ℚ)) = FP.fin bq) (hbq : bq ≠ 0)
    (hbhf : mkFP ((bh : ℚ)) = FP.fin hq) (hhq : hq ≠ 0) :
    pixel_to_point (bw, bh) (0, 0) (u1, u2) (l1, l2) = (u1, u2)
  ∧ pixel_to_point (bw, bh) (bw, bh) (u1, u2) (l1, l2) = (l1, l2)
  ∧ pixel_to_pointFp (bw, bh) (0, 0) (FP.fin u1, FP.fin u2)
      (FP.fin l1, FP.fin l2) = (FP.fin u1, FP.fin u2) := by
  have hbw' : ((bw : ℚ)) ≠ 0 := Nat.cast_ne_zero.mpr (Nat.pos_iff_ne_zero.mp hbw)
  have hbh' : ((bh : ℚ)) ≠ 0 := Nat.cast_ne_zero.mpr (Nat.pos_iff_ne_zero.mp hbh)
  refine ⟨?_, ?_, ?_⟩
  · simp [pixel_to_point]
  · simp only [pixel_to_point, Prod.mk.injEq]
    constructor
    · field_simp
    · field_simp
  · have hm0 : mkFP ((0 : ℕ) : ℚ) = FP.fin 0 := by
      simp [mkFP]
    simp only [pixel_to_pointFp, hw, hht, hm0]
    have hmul : ∀ y : ℚ, fpMul (FP.fin 0) (FP.fin y) = FP.fin 0 := by
      intro y
      simp [fpMul, mkFP]
    have hdivw : fpDiv (FP.fin 0) (mkFP ((bw : ℚ))) = FP.fin 0 := by
      rw [hbwf]
      simp [fpDiv, hbq, mkFP]
    have hdivh : fpDiv (FP.fin 0) (mkFP ((bh : ℚ))) = FP.fin 0 := by
      rw [hbhf]
      simp [fpDiv, hhq, mkFP]
    simp only [Nat.cast_zero] at hdivw hdivh ⊢
    rw [hmul w, hmul ht, hdivw, hdivh]
    have haddu : fpAdd (FP.fin u1) (FP.fin 0) = FP.fin u1 := by
      simpa [fpAdd] using hu1
    have hsubu : fpSub (FP.fin u2) (FP.fin 0) = FP.fin u2 := by
      simpa [fpSub, fpNeg, fpAdd] using hu2
    rw [haddu, hsubu]

/-- Witness for C2's amended theorem at bounds `(2,2)`, window
`(-1,1)`–`(1,-1)`. -/
theorem pixel_to_point_corners_witness :
    pixel_to_point (2, 2) (0, 0) ((-1 : ℚ), (1 : ℚ)) ((1 : ℚ), (-1 : ℚ))
      = ((-1 : ℚ), (1 : ℚ))
  ∧ pixel_to_point (2, 2) (2, 2) ((-1 : ℚ), (1 : ℚ)) ((1 : ℚ), (-1 : ℚ))
      = ((1 : ℚ), (-1 : ℚ))
  ∧ pixel_to_pointFp (2, 2) (0, 0) (FP.fin (-1), FP.fin 1)
      (FP.fin 1, FP.fin (-1)) = (FP.fin (-1), FP.fin 1) :=
  pixel_to_point_corners 2 2 (-1) 1 1 (-1) 2 2 2 2
    (by norm_num) (by norm_num) (by norm_num) (by norm_num)
    (by with_unfolding_all rfl) (by with_unfolding_all rfl)
    (by with_unfolding_all rfl) (by with_unfolding_all rfl)
    (by with_unfolding_all rfl) (by norm_num)
    (by with_unfolding_all rfl) (by norm_num)

/-- C2 counterexample: at bounds `(3,3)` with the valid window
`ul = (0, 1)`, `lr = (0.1, 0)` (where `0.1` denotes the binary64 value
`3602879701896397 / 2⁵⁵`), the `(width, height)` corner maps under binary64
arithmetic to `0.10000000000000002 ≠ 0.1`: `3·0.1` and the division by `3`
each round, landing one ulp above `lower_right.re`. -/
theorem pixel_to_point_corner_counterexample :
    (0 : ℚ) < 3602879701896397 / 36028797018963968
  ∧ (0 : ℚ) < 1
  ∧ (pixel_to_pointFp (3, 3) (3, 3) (FP.fin 0, FP.fin 1)
      (FP.fin (3602879701896397 / 36028797018963968), FP.fin 0)).1
      = FP.fin (7205759403792795 / 72057594037927936)
  ∧ (pixel_to_pointFp (3, 3) (3, 3) (FP.fin 0, FP.fin 1)
      (FP.fin (3602879701896397 / 36028797018963968), FP.fin 0)).1
      ≠ FP.fin (3602879701896397 / 36028797018963968) := by
  have he : (pixel_to_pointFp (3, 3) (3, 3) (FP.fin 0, FP.fin 1)
      (FP.fin (3602879701896397 / 36028797018963968), FP.fin 0)).1
      = FP.fin (7205759403792795 / 72057594037927936) := by
    with_unfolding_all rfl
  refine ⟨by norm_num, by norm_num, he, ne_of_eq_of_ne he ?_⟩
  simp only [ne_eq, FP.fin.injEq]
  norm_num

/-- C8: the unit test's literal check, in both models: pixel `(25,75)` of a
`100×100` image over the window `(-1,1)`–`(1,-1)` maps exactly to
`(-0.5, -0.5)`. -/
theorem pixel_to_point_literal :
    pixel_to_point (100, 100) (25, 75) ((-1 : ℚ), (1 : ℚ)) ((1 : ℚ), (-1 : ℚ))
      = (-(1 / 2), -(1 / 2))
  ∧ pixel_to_pointFp (100, 100) (25, 75) (FP.fin (-1), FP.fin 1)
      (FP.fin 1, FP.fin (-1)) = (FP.fin (-(1 / 2)), FP.fin (-(1 / 2))) := by
  constructor
  · simp only [pixel_to_point, Prod.mk.injEq]
    norm_num
  · with_unfolding_all rfl

/-- C4 (amended): for every single-byte separator, `parse_pair` returns
`Some((l, r))` exactly when the separator occurs and both halves around its
first occurrence parse, and returns `None` in every other case — including
all seven behaviours listed in the unit tests.  (For a multi-byte separator
that occurs in `s` the call panics instead of returning `None`; see the
counterexample theorem.) -/
theorem parse_pair_contract (α : Type) (p : List Char → Option α)
    (s : List Char) (sep : Char) (h1 : sep.utf8Size = 1) :
    (∀ a b : α, parse_pair p s sep = Except.ok (some (a, b)) ↔
       ∃ l r, s = l ++ sep :: r ∧ sep ∉ l ∧ p l = some a ∧ p r = some b)
  ∧ ((∀ v : α × α, parse_pair p s sep ≠ Except.ok (some v)) →
       parse_pair p s sep = Except.ok none)
  ∧ parse_pair parse_i32 ([] : List Char) ',' = Except.ok none
  ∧ parse_pair parse_i32 ('1' :: '0' :: ',' :: []) ',' = Except.ok none
  ∧ parse_pair parse_i32 (',' :: '1' :: '0' :: []) ',' = Except.ok none
  ∧ parse_pair parse_i32 ('1' :: '0' :: ',' :: '2' :: '0' :: []) ','
      = Except.ok (some (10, 20))
  ∧ parse_pair parse_i32 ('1' :: '0' :: ',' :: '2' :: '0' :: 'x' :: 'y' :: []) ','
      = Except.ok none
  ∧ parse_pair parse_f64 ('0' :: '.' :: '5' :: 'x' :: []) 'x' = Except.ok none
  ∧ parse_pair parse_f64 ('0' :: '.' :: '5' :: 'x' :: '1' :: '.' :: '5' :: []) 'x'
      = Except.ok (some (FP.fin (1 / 2), FP.fin (3 / 2))) := by
  refine ⟨?_, ?_, ?_, ?_, ?_, ?_, ?_, ?_, ?_⟩
  · intro a b
    constructor
    · intro hok
      cases hsp : splitAtSep sep s with
      | none =>
        rw [parse_pair_eq_of_split_none p s sep hsp] at hok
        exact absurd hok (by simp)
      | some pr =>
        obtain ⟨l, r⟩ := pr
        rw [parse_pair_eq_of_split_some p s sep l r hsp, if_pos h1] at hok
        obtain ⟨hs, hnl⟩ := splitAtSep_sound sep s l r hsp
        refine ⟨l, r, hs, hnl, ?_⟩
        cases hl : p l with
        | none =>
          cases hr : p r <;> simp only [hl, hr] at hok <;>
            exact absurd hok (by simp)
        | some a' =>
          cases hr : p r with
          | none =>
            simp only [hl, hr] at hok
            exact absurd hok (by simp)
          | some b' =>
            simp only [hl, hr, Except.ok.injEq, Option.some.injEq,
              Prod.mk.injEq] at hok
            exact ⟨congrArg some hok.1, congrArg some hok.2⟩
    · rintro ⟨l, r, rfl, hnl, hl, hr⟩
      rw [parse_pair_eq_of_split_some p _ sep l r (splitAtSep_complete sep l r hnl),
        if_pos h1]
      simp only [hl, hr]
  · intro hnot
    cases hsp : splitAtSep sep s with
    | none => exact parse_pair_eq_of_split_none p s sep hsp
    | some pr =>
      obtain ⟨l, r⟩ := pr
      rw [parse_pair_eq_of_split_some p s sep l r hsp, if_pos h1]
      cases hl : p l with
      | none => cases hr : p r <;> simp only [hl, hr]
      | some a =>
        cases hr : p r with
        | none => simp only [hl, hr]
        | some b =>
          exfalso
          apply hnot (a, b)
          rw [parse_pair_eq_of_split_some p s sep l r hsp, if_pos h1]
          simp only [hl, hr]
  · with_unfolding_all rfl
  · with_unfolding_all rfl
  · with_unfolding_all rfl
  · with_unfolding_all rfl
  · with_unfolding_all rfl
  · with_unfolding_all rfl
  · with_unfolding_all rfl

/-- Witness for C4's amended theorem at `s = "10,20"`, `sep = ','` with the
`i32` parser. -/
theorem parse_pair_contract_witness :
    (parse_pair parse_i32 ('1' :: '0' :: ',' :: '2' :: '0' :: []) ','
        = Except.ok (some ((10 : ℤ), (20 : ℤ))) ↔
      ∃ l r, ('1' :: '0' :: ',' :: '2' :: '0' :: []) = l ++ ',' :: r
        ∧ ',' ∉ l ∧ parse_i32 l = some 10 ∧ parse_i32 r = some 20)
  ∧ parse_pair parse_f64 ('0' :: '.' :: '5' :: 'x' :: []) 'x' = Except.ok none :=
  ⟨(parse_pair_contract ℤ parse_i32 ('1' :: '0' :: ',' :: '2' :: '0' :: []) ','
      (by with_unfolding_all rfl)).1 10 20,
   (parse_pair_contract FP parse_f64 ('0' :: '.' :: '5' :: 'x' :: []) 'x'
      (by with_unfolding_all rfl)).2.2.2.2.2.2.2.1⟩

/-- C4 counterexample: at `s = "é"`, `sep = 'é'`, the separator occurs and
neither half parses, so the claim requires the result `None`; the code
instead panics slicing at byte offset 1, inside the separator's two-byte
UTF-8 encoding. -/
theorem parse_pair_contract_counterexample :
    parse_pair parse_i32 ('é' :: []) 'é' = Except.error ()
  ∧ parse_pair parse_i32 ('é' :: []) 'é' ≠ Except.ok none := by
  have h : parse_pair parse_i32 ('é' :: []) 'é' = Except.error () := by
    with_unfolding_all rfl
  exact ⟨h, ne_of_eq_of_ne h (by simp)⟩

/-- C10: `parse_pair` never panics for a single-byte separator — the slice
starting at `index + 1` begins right after the separator's one-byte encoding,
on a character boundary — but the call with input `"1é2"` and the two-byte
separator `'é'` slices inside the separator's encoding and panics. -/
theorem parse_pair_boundary (α : Type) (p : List Char → Option α)
    (s : List Char) (sep : Char) (h1 : sep.utf8Size = 1) :
    (∃ res, parse_pair p s sep = Except.ok res)
  ∧ parse_pair parse_i32 ('1' :: 'é' :: '2' :: []) 'é' = Except.error () := by
  constructor
  · cases hsp : splitAtSep sep s with
    | none => exact ⟨none, parse_pair_eq_of_split_none p s sep hsp⟩
    | some pr =>
      obtain ⟨l, r⟩ := pr
      rw [parse_pair_eq_of_split_some p s sep l r hsp, if_pos h1]
      exact ⟨_, rfl⟩
  · with_unfolding_all rfl

/-- Witness for C10 at `s = "1,2"`, `sep = ','`. -/
theorem parse_pair_boundary_witness :
    (∃ res, parse_pair parse_i32 ('1' :: ',' :: '2' :: []) ',' = Except.ok res)
  ∧ parse_pair parse_i32 ('1' :: 'é' :: '2' :: []) 'é' = Except.error () :=
  parse_pair_boundary ℤ parse_i32 ('1' :: ',' :: '2' :: []) ','
    (by with_unfolding_all rfl)

/-- C5: with positive bounds and a buffer of length `width * height`, the
scheduler's `chunks_mut(width)` splits the buffer into exactly `height`
bands, each of one row (`width` pixels), band `i` being precisely the slice
at offsets `[i*width, (i+1)*width)`; concatenating the bands in order gives
back the buffer, so the bands are pairwise disjoint and cover every index
exactly once. -/
theorem run_partition (bounds : ℕ × ℕ) (px : List ℕ)
    (hw : 0 < bounds.1) (hh : 0 < bounds.2)
    (hlen : px.length = bounds.1 * bounds.2) :
    (chunks bounds.1 px).length = bounds.2
  ∧ (∀ b ∈ chunks bounds.1 px, b.length = bounds.1)
  ∧ (∀ i, i < bounds.2 →
      (chunks bounds.1 px)[i]? = some ((px.drop (i * bounds.1)).take bounds.1))
  ∧ (chunks bounds.1 px).flatten = px :=
  chunks_partition bounds.1 hw bounds.2 px hlen

/-- Witness for C5 at bounds `(2, 3)` with the buffer `[0,1,2,3,4,5]`. -/
theorem run_partition_witness :
    (chunks 2 [0, 1, 2, 3, 4, 5]).length = 3
  ∧ (∀ b ∈ chunks 2 [0, 1, 2, 3, 4, 5], b.length = 2)
  ∧ (∀ i, i < 3 →
      (chunks 2 [0, 1, 2, 3, 4, 5])[i]?
        = some (([0, 1, 2, 3, 4, 5].drop (i * 2)).take 2))
  ∧ (chunks 2 [0, 1, 2, 3, 4, 5]).flatten = [0, 1, 2, 3, 4, 5] :=
  run_partition (2, 3) [0, 1, 2, 3, 4, 5] (by norm_num) (by norm_num) (by simp)

theorem renderCols_spec (bounds : ℕ × ℕ) (ul lr : ℚ × ℚ) (r : ℕ) :
    ∀ (n c : ℕ) (px : List ℕ), r * bounds.1 + c + n ≤ px.length →
      ∃ px', renderCols bounds ul lr r c px n = some px'
        ∧ px'.length = px.length
        ∧ (∀ j, j < r * bounds.1 + c ∨ r * bounds.1 + c + n ≤ j →
            px'[j]? = px[j]?)
        ∧ (∀ k, k < n → px'[r * bounds.1 + c + k]?
            = some (pixVal (pixel_to_point bounds (c + k, r) ul lr))) := by
  intro n
  induction n with
  | zero =>
    intro c px _
    exact ⟨px, rfl, rfl, fun j _ => rfl, fun k hk => absurd hk (by omega)⟩
  | succ m ih =>
    intro c px hlen
    have hidx : r * bounds.1 + c < px.length := by omega
    have hset : setAt px (r * bounds.1 + c)
        (pixVal (pixel_to_point bounds (c, r) ul lr))
        = some (px.set (r * bounds.1 + c)
            (pixVal (pixel_to_point bounds (c, r) ul lr))) := by
      simp [setAt, hidx]
    obtain ⟨px', hrun, hlen', hunt, hhit⟩ :=
      ih (c + 1)
        (px.set (r * bounds.1 + c) (pixVal (pixel_to_point bounds (c, r) ul lr)))
        (by rw [List.length_set]; omega)
    refine ⟨px', ?_, ?_, ?_, ?_⟩
    · rw [renderCols, hset]
      exact hrun
    · rw [hlen', List.length_set]
    · intro j hj
      have h1 : px'[j]? = (px.set (r * bounds.1 + c)
          (pixVal (pixel_to_point bounds (c, r) ul lr)))[j]? :=
        hunt j (by omega)
      rw [h1, List.getElem?_set_ne (by omega : r * bounds.1 + c ≠ j)]
    · intro k hk
      cases k with
      | zero =>
        have h1 : px'[r * bounds.1 + c]? = (px.set (r * bounds.1 + c)
            (pixVal (pixel_to_point bounds (c, r) ul lr)))[r * bounds.1 + c]? :=
          hunt (r * bounds.1 + c) (Or.inl (by omega))
        have h2 : (px.set (r * bounds.1 + c)
            (pixVal (pixel_to_point bounds (c, r) ul lr)))[r * bounds.1 + c]?
            = some (pixVal (pixel_to_point bounds (c, r) ul lr)) :=
          List.getElem?_set_eq_of_lt _ hidx
        have h3 : r * bounds.1 + c + 0 = r * bounds.1 + c := by omega
        have h4 : c + 0 = c := by omega
        rw [h3, h4, h1, h2]
      | succ k' =>
        have h5 := hhit k' (by omega)
        have h6 : r * bounds.1 + c + (k' + 1) = r * bounds.1 + (c + 1) + k' := by
          omega
        have h7 : c + (k' + 1) = c + 1 + k' := by omega
        rw [h6, h7]
        exact h5

theorem renderRows_spec (bounds : ℕ × ℕ) (ul lr : ℚ × ℚ) :
    ∀ (n r : ℕ) (px : List ℕ), px.length = bounds.1 * bounds.2 →
      r + n ≤ bounds.2 →
      ∃ px', renderRows bounds ul lr r px n = some px'
        ∧ px'.length = px.length
        ∧ (∀ j, j < r * bounds.1 → px'[j]? = px[j]?)
        ∧ (∀ ρ k, r ≤ ρ → ρ < r + n → k < bounds.1 →
            px'[ρ * bounds.1 + k]?
              = some (pixVal (pixel_to_point bounds (k, ρ) ul lr))) := by
  intro n
  induction n with
  | zero =>
    intro r px _ _
    exact ⟨px, rfl, rfl, fun j _ => rfl, fun ρ k _ h2 _ => absurd h2 (by omega)⟩
  | succ m ih =>
    intro r px hlen hr
    have hsuccmul : (r + 1) * bounds.1 = r * bounds.1 + bounds.1 := by ring
    have hcols : r * bounds.1 + 0 + bounds.1 ≤ px.length := by
      rw [hlen]
      have h1 : (r + 1) * bounds.1 ≤ bounds.2 * bounds.1 :=
        Nat.mul_le_mul_right _ (by omega)
      have h2 : bounds.2 * bounds.1 = bounds.1 * bounds.2 := Nat.mul_comm _ _
      omega
    obtain ⟨px₁, hrun₁, hlen₁, hunt₁, hhit₁⟩ :=
      renderCols_spec bounds ul lr r bounds.1 0 px hcols
    obtain ⟨px', hrun', hlen', hunt', hhit'⟩ :=
      ih (r + 1) px₁ (by rw [hlen₁, hlen]) (by omega)
    refine ⟨px', ?_, ?_, ?_, ?_⟩
    · rw [renderRows, hrun₁]
      exact hrun'
    · rw [hlen', hlen₁]
    · intro j hj
      have h1 : px'[j]? = px₁[j]? := hunt' j (by omega)
      rw [h1]
      exact hunt₁ j (Or.inl (by omega))
    · intro ρ k hρ1 hρ2 hk
      by_cases hcase : ρ = r
      · subst hcase
        have h1 : px'[ρ * bounds.1 + k]? = px₁[ρ * bounds.1 + k]? :=
          hunt' (ρ * bounds.1 + k) (by omega)
        have h2 := hhit₁ k hk
        have h3 : ρ * bounds.1 + 0 + k = ρ * bounds.1 + k := by omega
        have h4 : (0 : ℕ) + k = k := by omega
        rw [h3, h4] at h2
        rw [h1, h2]
      · exact hhit' ρ k (by omega) (by omega) hk

/-- C6: `render` fails (the modelled `assert!` panic) precisely when the
buffer length differs from `bounds.0 * bounds.1`; under the length
precondition every buffer write `r * width + c` is in bounds and `render`
completes, returning a buffer of unchanged length — it neither truncates,
pads, nor fails for any other reason. -/
theorem render_contract (px : List ℕ) (bounds : ℕ × ℕ) (ul lr : ℚ × ℚ) :
    (render px bounds ul lr = none ↔ px.length ≠ bounds.1 * bounds.2)
  ∧ (px.length = bounds.1 * bounds.2 →
      ∃ out, render px bounds ul lr = some out ∧ out.length = px.length) := by
  by_cases hlen : px.length = bounds.1 * bounds.2
  · obtain ⟨out, hrun, hl, _, _⟩ :=
      renderRows_spec bounds ul lr bounds.2 0 px hlen (by omega)
    constructor
    · simp [render, hlen, hrun]
    · intro _
      exact ⟨out, by simp [render, hlen, hrun], hl⟩
  · constructor
    · simp [render, hlen]
    · intro hcontra
      exact absurd hcontra hlen

/-- Witness for C6: a mismatched buffer (length 2 for 1×1 bounds) fails, a
matching one (length 1) succeeds with its length preserved. -/
theorem render_contract_witness :
    render [0, 0] (1, 1) ((3 : ℚ), (0 : ℚ)) ((3 : ℚ), (0 : ℚ)) = none
  ∧ ∃ out, render [0] (1, 1) ((3 : ℚ), (0 : ℚ)) ((3 : ℚ), (0 : ℚ)) = some out
      ∧ out.length = 1 := by
  constructor
  · exact (render_contract [0, 0] (1, 1) ((3 : ℚ), (0 : ℚ))
      ((3 : ℚ), (0 : ℚ))).1.mpr (by norm_num)
  · obtain ⟨out, h1, h2⟩ := (render_contract [0] (1, 1) ((3 : ℚ), (0 : ℚ))
      ((3 : ℚ), (0 : ℚ))).2 (by norm_num)
    exact ⟨out, h1, by simpa using h2⟩

/-- C1: for a buffer of the contracted length, `render` writes at index
`row * width + col` the byte `0` when `escapes` of the pixel's plane point
(via `pixel_to_point`, limit 255) returns `none`, and `255 - i` when it
returns `some i`. -/
theorem render_pixels (px : List ℕ) (bounds : ℕ × ℕ) (ul lr : ℚ × ℚ)
    (row col : ℕ) (hlen : px.length = bounds.1 * bounds.2)
    (hrow : row < bounds.2) (hcol : col < bounds.1) :
    ∃ out, render px bounds ul lr = some out
      ∧ out[row * bounds.1 + col]?
          = some (match escapes (pixel_to_point bounds (col, row) ul lr) 255 with
                  | none => 0
                  | some i => 255 - i) := by
  obtain ⟨out, hrun, _, _, hhit⟩ :=
    renderRows_spec bounds ul lr bounds.2 0 px hlen (by omega)
  refine ⟨out, by simp [render, hlen, hrun], ?_⟩
  rw [hhit row col (by omega) (by omega) hcol]
  unfold pixVal
  cases hesc : escapes (pixel_to_point bounds (col, row) ul lr) 255 with
  | none => rfl
  | some i =>
    have hib : i < 255 := by
      have := escapesAux_bound (pixel_to_point bounds (col, row) ul lr).1
        (pixel_to_point bounds (col, row) ul lr).2 255 0 0 0 i hesc
      omega
    simp [Nat.mod_eq_of_lt (show i < 256 by omega)]

/-- Witness for C1: a 1×1 render over the window corner `(3, 0)`, whose
plane point escapes at index 0, stores `255 - 0 = 255`. -/
theorem render_pixels_witness :
    ∃ out, render [0] (1, 1) ((3 : ℚ), (0 : ℚ)) ((3 : ℚ), (0 : ℚ)) = some out
      ∧ out[0 * 1 + 0]?
          = some (match escapes (pixel_to_point (1, 1) (0, 0) ((3 : ℚ), (0 : ℚ))
                    ((3 : ℚ), (0 : ℚ))) 255 with
                  | none => 0
                  | some i => 255 - i) :=
  render_pixels [0] (1, 1) ((3 : ℚ), (0 : ℚ)) ((3 : ℚ), (0 : ℚ)) 0 0
    (by norm_num) (by norm_num) (by norm_num)

end Mandel
